import Mathlib

/-! # kvv (Key Vault Viewer): a shallow embedding of `cmd/kvv/main.go`

The program is a terminal browser for a secret store.  Its process-wide
globals (`secrets`, `client`, `keys`, `versionsTable`, `secretValue`, the
application focus) are collected in one `Session` record that every handler
receives and returns.  A handler that can abort the process returns an
`Outcome`.

Library behaviour that the program relies on (Go's `sort.Slice`, `fmt.Sprint`,
the `tview` table and text widgets, the `azsecrets` pagers) is written down
next to the place where it is used, with the part of it that is covered.
Cell styles are not tracked: no handler reads them.
-/

namespace Kvv

/-! ## Versions and their ordering -/

/-- An instant of `time.Time`, as a signed count of nanoseconds. -/
abbrev Time := Int

/-- The method `Time.Before`: strictly earlier. -/
def Time.Before (t u : Time) : Bool := decide (t < u)

/-- The struct `secretVersion`; a nil `Created` pointer is `none`. -/
structure secretVersion where
  Id : String
  Created : Option Time
deriving DecidableEq, Repr

/-- The closure handed to `sort.Slice` in `sortSecretVersionsNewestFirst`.  It
reads `versions[i]` and `versions[j]` from the slice that is being sorted, so
it takes the current contents.  The sort only calls it with indices in range;
an index out of range is answered `false` here. -/
def lessCreated (versions : List secretVersion) (i j : Nat) : Bool :=
  match versions[i]?, versions[j]? with
  | some vi, some vj =>
    match vi.Created, vj.Created with
    | some ci, some cj => !(Time.Before ci cj)
    | _, _ => false
  | _, _ => false

/-- The swapper of `sort.Slice`: exchanges the elements at `i` and `j`. -/
def swapIdx {α : Type} (xs : List α) (i j : Nat) : List α :=
  match xs[i]?, xs[j]? with
  | some x, some y => (xs.set i y).set j x
  | _, _ => xs

/-- The inner loop of Go's `insertionSortLessFunc`,
`for j := i; j > a && data.Less(j, j-1); j-- { data.Swap(j, j-1) }`,
started at `j`. -/
def insertionInner {α : Type} (less : List α → Nat → Nat → Bool) (a : Nat) :
    Nat → List α → List α
  | 0, xs => xs
  | j + 1, xs =>
    if a < j + 1 && less xs (j + 1) j then
      insertionInner less a j (swapIdx xs (j + 1) j)
    else xs

/-- The outer loop of `insertionSortLessFunc`, `for i := a + 1; i < b; i++`,
with `n` iterations left and the loop variable at `i`. -/
def insertionOuter {α : Type} (less : List α → Nat → Nat → Bool) (a : Nat) :
    Nat → Nat → List α → List α
  | 0, _, xs => xs
  | n + 1, i, xs => insertionOuter less a n (i + 1) (insertionInner less a i xs)

/-- Go's `insertionSortLessFunc(data, a, b)`: sorts `data[a:b]` in place. -/
def insertionSortLessFunc {α : Type} (less : List α → Nat → Nat → Bool)
    (xs : List α) (a b : Nat) : List α :=
  insertionOuter less a (b - (a + 1)) (a + 1) xs

/-- The constant `maxInsertion` of Go's `pdqsort_func`. -/
def maxInsertion : Nat := 12

/-- Go's `sort.Slice(x, less)`, which runs `pdqsort_func` over `[0, len)`.  A
slice of at most `maxInsertion` elements is sorted by `insertionSortLessFunc`
and the call returns.  A longer slice goes through the pivot and partition
steps, which are not covered here: `none` stands for "not covered", it is not
a failure of the call. -/
def sortSlice {α : Type} (xs : List α) (less : List α → Nat → Nat → Bool) :
    Option (List α) :=
  if xs.length ≤ maxInsertion then some (insertionSortLessFunc less xs 0 xs.length)
  else none

/-- What a call of `sortSecretVersionsNewestFirst` leaves behind: the contents
of the slice the caller passed in, and the slice that is returned. -/
structure SortResult where
  callerSlice : List secretVersion
  returned : List secretVersion
deriving DecidableEq, Repr

/-- The function `sortSecretVersionsNewestFirst`.  `sort.Slice` works on the
backing array of its argument and the function returns that same slice, so
the caller's slice and the returned one have the same contents. -/
def sortSecretVersionsNewestFirst (versions : List secretVersion) : Option SortResult :=
  match sortSlice versions lessCreated with
  | some sorted => some ⟨sorted, sorted⟩
  | none => none

/-! ## Outcomes of running a handler -/

/-- How a piece of the program ends: it returns with a new state, the process
dies in a Go panic, the process leaves through `os.Exit`, or the run left the
part of `sort.Slice` that is covered (see `sortSlice`). -/
inductive Outcome (σ : Type) where
  | done (s : σ)
  | panicked (msg : String)
  | exited (code : Nat) (stdout : String)
  | notCovered

/-- Sequencing: the second step runs only when the first one returned. -/
def Outcome.andThen {σ τ : Type} (o : Outcome σ) (f : σ → Outcome τ) : Outcome τ :=
  match o with
  | .done s => f s
  | .panicked msg => .panicked msg
  | .exited code out => .exited code out
  | .notCovered => .notCovered

/-- The text of the Go runtime panic for a nil pointer dereference. -/
def nilDereference : String :=
  "runtime error: invalid memory address or nil pointer dereference"

/-! ## The tview widgets -/

/-- A `tview.TableCell`, with the two fields the program sets. -/
structure TableCell where
  Text : String
  Expansion : Nat
deriving DecidableEq, Repr

/-- The constructor `tview.NewTableCell(text)`. -/
def NewTableCell (text : String) : TableCell := ⟨text, 0⟩

/-- The method `TableCell.SetExpansion`. -/
def TableCell.SetExpansion (c : TableCell) (expansion : Nat) : TableCell :=
  { c with Expansion := expansion }

/-- A `tview.Table`: its rows of cells and the selected position. -/
structure Table where
  cells : List (List TableCell)
  selectedRow : Nat
  selectedColumn : Nat
deriving DecidableEq, Repr

/-- The method `Table.Clear`: removes all cells, the selection stays. -/
def Table.Clear (t : Table) : Table := { t with cells := [] }

/-- The method `Table.Select`. -/
def Table.Select (t : Table) (row column : Nat) : Table :=
  { t with selectedRow := row, selectedColumn := column }

/-- The method `Table.GetSelection`. -/
def Table.GetSelection (t : Table) : Nat × Nat := (t.selectedRow, t.selectedColumn)

/-- The method `Table.GetCell`.  tview always hands back a cell: where none was
set it is a fresh empty one.  The result is an `Option` because the Go type is
a pointer and `secretSelected` tests it against nil. -/
def Table.GetCell (t : Table) (row column : Nat) : Option TableCell :=
  some ((t.cells.getD row []).getD column ⟨"", 0⟩)

/-- The method `Table.SetCell`: the rows are extended up to `row`, the row is
extended with empty cells up to `column`, and the cell is stored. -/
def Table.SetCell (t : Table) (row column : Nat) (cell : TableCell) : Table :=
  let rows :=
    if t.cells.length ≤ row then t.cells ++ List.replicate (row - t.cells.length + 1) []
    else t.cells
  let r := rows.getD row []
  let r := if r.length ≤ column then r ++ List.replicate (column - r.length + 1) ⟨"", 0⟩ else r
  { t with cells := rows.set row (r.set column cell) }

/-- A `tview.TextView`, by the text it holds. -/
structure TextView where
  text : String
deriving DecidableEq, Repr

/-- The method `TextView.Clear`. -/
def TextView.Clear (_ : TextView) : TextView := ⟨""⟩

/-- The method `TextView.SetText`: the former text is replaced. -/
def TextView.SetText (_ : TextView) (text : String) : TextView := ⟨text⟩

/-- The method `TextView.GetText(true)`.  The view is created with neither
region nor style tags switched on, so there is nothing to strip. -/
def TextView.GetText (v : TextView) : String := v.text

/-- The three widgets that `app.SetFocus` is called with. -/
inductive Widget where
  | kvDropdown
  | keys
  | versionsTable
deriving DecidableEq, Repr

/-! ## The secret store and the session -/

/-- One page of a pager: the items of the page, or the error of `NextPage`. -/
abbrev Page (α : Type) := Except String (List α)

/-- An `azsecrets.Client` bound to one vault, by what its three calls answer.
A pager is the list of its pages, `More()` holding while pages are left.  A
secret item is given by `ID.Name()`, a version item by the `secretVersion`
that `getSecretVersions` builds from it.  `GetSecret` answers an error text or
the `SecretBundle.Value` pointer. -/
structure Client where
  NewListSecretsPager : List (Page String)
  NewListSecretVersionsPager : String → List (Page secretVersion)
  GetSecret : String → String → Except String (Option String)

/-- What the program gets from outside of it: `azsecrets.NewClient` for a
vault URI, the method `Time.String`, and whether the host clipboard takes a
write. -/
structure Env where
  NewClient : String → Except String Client
  timeString : Time → String
  clipboardWritable : Bool

/-- The globals of `main.go` together with the application state they drive:
the widget that has focus, whether `app.Stop` was called, and the contents of
the host clipboard. -/
structure Session where
  secrets : List String
  client : Option Client
  keys : Table
  versionsTable : Table
  secretValue : TextView
  focus : Widget
  stopped : Bool
  clipboard : String

/-! ## Handlers -/

/-- The function `connect`. -/
def connect (env : Env) (s : Session) (vaultUri : String) : Outcome Session :=
  match env.NewClient vaultUri with
  | .error err => .panicked err
  | .ok c => .done { s with client := some c }

/-- The loop of `fetchSecrets` over the pages that are left. -/
def drainSecrets : List (Page String) → List String → Outcome (List String)
  | [], secrets => .done secrets
  | .error err :: _, _ => .panicked ("failed to get paged secrets: " ++ err)
  | .ok page :: rest, secrets => drainSecrets rest (secrets ++ page)

/-- The function `fetchSecrets`. -/
def fetchSecrets (s : Session) : Outcome Session :=
  match s.client with
  | none => .panicked nilDereference
  | some client =>
    (drainSecrets client.NewListSecretsPager []).andThen fun secrets =>
      .done { s with secrets := secrets }

/-- The function `clearVersionsAndValue`. -/
def clearVersionsAndValue (s : Session) : Session :=
  { s with versionsTable := s.versionsTable.Clear, secretValue := s.secretValue.Clear }

/-- The loop of `updateKeys`, from row `row` on. -/
def fillKeys (keys : Table) : Nat → List String → Table
  | _, [] => keys
  | row, secret :: rest => fillKeys (keys.SetCell row 0 (NewTableCell secret)) (row + 1) rest

/-- The function `updateKeys`. -/
def updateKeys (s : Session) : Session :=
  let s := clearVersionsAndValue s
  { s with keys := fillKeys s.keys.Clear 0 s.secrets }

/-- The function `unfocusTables`: it only restyles cells. -/
def unfocusTables (s : Session) : Session := s

/-- The function `setTableFocus`. -/
def setTableFocus (s : Session) (table : Widget) : Session :=
  { unfocusTables s with focus := table }

/-- The function `showValue`. -/
def showValue (s : Session) (value : String) : Session :=
  { s with secretValue := s.secretValue.Clear.SetText value }

/-- The function `versionSelected`.  `fmt.Sprint` puts no space between two
operands when one of them is a string, and prints the error by its `Error()`
text. -/
def versionSelected (s : Session) (row : Nat) : Outcome Session :=
  let keyIndex := s.keys.GetSelection.1
  match s.keys.GetCell keyIndex 0, s.versionsTable.GetCell row 0 with
  | some keyCell, some versionCell =>
    let secretName := keyCell.Text
    let versionId := versionCell.Text
    match s.client with
    | none => .panicked nilDereference
    | some client =>
      match client.GetSecret secretName versionId with
      | .error err => .done (showValue s ("error getting secret: " ++ err))
      | .ok (some secret) => .done (showValue s secret)
      | .ok none => .done s
  | _, _ => .panicked nilDereference

/-- The loop of `showVersions`, from row `r` on.  `version.Created.String()`
calls a method with a value receiver through the pointer, so a nil `Created`
is dereferenced. -/
def renderVersions (env : Env) (table : Table) : Nat → List secretVersion → Outcome Table
  | _, [] => .done table
  | r, version :: rest =>
    let table := table.SetCell r 0 ((NewTableCell version.Id).SetExpansion 2)
    match version.Created with
    | none => .panicked nilDereference
    | some created =>
      renderVersions env (table.SetCell r 1 (NewTableCell (env.timeString created))) (r + 1) rest

/-- The function `showVersions`. -/
def showVersions (env : Env) (s : Session) (versions : List secretVersion) : Outcome Session :=
  let s := { s with versionsTable := s.versionsTable.Clear }
  match sortSecretVersionsNewestFirst versions with
  | none => .notCovered
  | some sorted =>
    (renderVersions env s.versionsTable 0 sorted.returned).andThen fun table =>
      let s := { s with versionsTable := table.Select 0 0 }
      (versionSelected s 0).andThen fun s =>
        .done (setTableFocus s .versionsTable)

/-- The loop of `getSecretVersions` over the pages that are left. -/
def drainVersions : List (Page secretVersion) → List secretVersion →
    Except String (List secretVersion)
  | [], versions => .ok versions
  | .error err :: _, _ => .error ("failed to get paged secret versions: " ++ err)
  | .ok page :: rest, versions => drainVersions rest (versions ++ page)

/-- The function `getSecretVersions`. -/
def getSecretVersions (secretName : String) (client : Client) :
    Except String (List secretVersion) :=
  drainVersions (client.NewListSecretVersionsPager secretName) []

/-- The function `secretSelected`. -/
def secretSelected (env : Env) (s : Session) (row col : Nat) : Outcome Session :=
  match s.keys.GetCell row col with
  | none => .done s
  | some secretCell =>
    let secretName := secretCell.Text
    match s.client with
    | none => .panicked nilDereference
    | some client =>
      match getSecretVersions secretName client with
      | .error _ => .done s
      | .ok versions => showVersions env s versions

/-- The callback that `main` attaches to each option of the vault dropdown. -/
def vaultOptionSelected (env : Env) (s : Session) (vaultUri : String) : Outcome Session :=
  (connect env s vaultUri).andThen fun s =>
    (fetchSecrets s).andThen fun s =>
      .done (setTableFocus (updateKeys s) .keys)

/-- The function `copySecret`; the error of `clipboard.WriteAll` is dropped. -/
def copySecret (env : Env) (s : Session) : Session :=
  if env.clipboardWritable then { s with clipboard := s.secretValue.GetText } else s

/-! ## Key events -/

/-- The key codes of tcell that the program tests for. -/
inductive Key where
  | KeyRune
  | KeyCtrlC
  | KeyEscape
  | other (code : Nat)
deriving DecidableEq, Repr

/-- A `tcell.EventKey`, by what `Key()` and `Rune()` answer. -/
structure EventKey where
  Key : Key
  Rune : Char
deriving DecidableEq, Repr

/-- The input capture set on the application in `main`.  The first component
is the event handed on to the focused widget, `none` for Go's nil. -/
def appInputCapture (env : Env) (s : Session) (event : EventKey) :
    Option EventKey × Session :=
  if event.Key = Key.KeyCtrlC then (none, s)
  else if event.Rune = 'c' then (none, copySecret env s)
  else if event.Rune = 'v' then (none, { unfocusTables s with focus := .kvDropdown })
  else if event.Rune = 'q' then (none, { s with stopped := true })
  else (some event, s)

/-- The input capture set on the vault dropdown. -/
def kvDropdownInputCapture (s : Session) (event : EventKey) : Option EventKey × Session :=
  if event.Key = Key.KeyEscape then (none, setTableFocus s .keys) else (some event, s)

/-- The input capture set on the versions table. -/
def versionsTableInputCapture (s : Session) (event : EventKey) : Option EventKey × Session :=
  if event.Key = Key.KeyEscape then (none, setTableFocus (clearVersionsAndValue s) .keys)
  else (some event, s)

/-! ## Start-up: the list of vaults -/

/-- The struct `kvvConfig`. -/
structure kvvConfig where
  Vaults : List String
deriving DecidableEq, Repr

/-- What `main` finds when it looks for the config file: no home directory, no
file at `kvvConfigFile`, a file that cannot be read, one that does not parse
(with the error of `yaml.Unmarshal`), or a parsed config. -/
inductive ConfigFile where
  | noHome
  | absent
  | unreadable (kvvConfigFile : String)
  | malformed (kvvConfigFile : String) (err : String)
  | parsed (config : kvvConfig)
deriving DecidableEq, Repr

/-- The loop `for _, vault := range config.Vaults` of `main`. -/
def appendConfigVaults (vaults : List String) : List String → List String
  | [] => vaults
  | vault :: rest =>
    if !(vaults.contains vault) then appendConfigVaults (vaults ++ [vault]) rest
    else appendConfigVaults vaults rest

/-- The first statements of `main`: `vaults` after `os.Args` was looked at. -/
def argVaults (args : List String) : List String :=
  if args.length > 1 then [] ++ [args.getD 1 ""] else []

/-- The part of `main` up to the check for an empty list: the vault list the
dropdown is filled from, or the way the process ends before that. -/
def mainVaults (args : List String) (file : ConfigFile) : Outcome (List String) :=
  let vaults := argVaults args
  let loaded : Outcome (List String) :=
    match file with
    | .noHome => .done vaults
    | .absent => .done vaults
    | .unreadable kvvConfigFile => .panicked ("error reading confg file at " ++ kvvConfigFile)
    | .malformed kvvConfigFile err =>
      .panicked ("error unmarshalling confg file at " ++ kvvConfigFile ++ ": " ++ err)
    | .parsed config => .done (appendConfigVaults vaults config.Vaults)
  loaded.andThen fun vaults =>
    if vaults.length = 0 then .exited 1 "No vaults to open, exiting\n" else .done vaults

/-! ## The specification's wording, for comparison with the code -/

/-- The endpoint list as the specification words it, for a list of URIs in
the order "command line, then config file": a URI is kept at its first
occurrence and skipped wherever it occurs again. -/
def firstOccurrences : List String → List String
  | [] => []
  | uri :: rest => uri :: (firstOccurrences rest).filter (fun u => u ≠ uri)

/-! ## Auxiliary definitions for the proofs -/

/-- The comparator of `lessCreated` on two versions. -/
def lessVersion (x y : secretVersion) : Bool :=
  match x.Created, y.Created with
  | some cx, some cy => !(Time.Before cx cy)
  | _, _ => false

/-- One run of the inner loop, on the part of the slice before the moving
element, last element first. -/
def insertLeft (x : secretVersion) : List secretVersion → List secretVersion
  | [] => [x]
  | y :: l => if lessVersion x y then y :: insertLeft x l else x :: y :: l

/-- The outer loop, on the part already passed (last element first) and the
part still to come. -/
def insertAll : List secretVersion → List secretVersion → List secretVersion
  | done, [] => done.reverse
  | done, x :: todo => insertAll (insertLeft x done) todo

/-- The version `a` was not created before the version `b`, both creation
times being known. -/
def notBefore (a b : secretVersion) : Prop :=
  match a.Created, b.Created with
  | some ca, some cb => Time.Before ca cb = false
  | _, _ => False

instance notBefore.decidable (a b : secretVersion) : Decidable (notBefore a b) := by
  unfold notBefore
  split <;> infer_instance

/-- The row that `showVersions` writes for a version whose creation time is
known: the id, expanded, and the creation time as text. -/
def versionRow (env : Env) (v : secretVersion) : List TableCell :=
  [⟨v.Id, 2⟩, ⟨env.timeString (v.Created.getD 0), 0⟩]

/-- The sort rule as the specification words it: the versions with a known
creation time in descending order of it, ties in their original order, then
the versions without one, in their original order. -/
def specNewestFirst (versions : List secretVersion) : List secretVersion :=
  (versions.filter (fun v => v.Created.isSome)).insertionSort
      (fun a b => b.Created.getD 0 ≤ a.Created.getD 0) ++
    versions.filter (fun v => v.Created.isNone)

/-! ## Scenario data -/

/-- A store in which every listing and every fetch fails with `reason`. -/
def failingClient (reason : String) : Client where
  NewListSecretsPager := [.error reason]
  NewListSecretVersionsPager := fun _ => [.error reason]
  GetSecret := fun _ _ => .error reason

/-- A store whose secrets pager yields one page and then fails. -/
def brokenPagerClient : Client where
  NewListSecretsPager := [.ok ["A", "B"], .error "context deadline exceeded"]
  NewListSecretVersionsPager := fun _ => [.ok []]
  GetSecret := fun _ _ => .ok none

/-- A store in which every secret lists no version, while a fetch with the
empty version id answers the current value. -/
def noVersionsClient : Client where
  NewListSecretsPager := [.ok ["A"]]
  NewListSecretVersionsPager := fun _ => [.ok []]
  GetSecret := fun _ versionId =>
    if versionId = "" then .ok (some "current plaintext") else .error "not found"

/-- An environment that binds every vault URI to `client`. -/
def envWith (client : Client) : Env where
  NewClient := fun _ => .ok client
  timeString := fun t => toString t
  clipboardWritable := true

/-- A session bound to `client`, with the secrets `A` and `B` listed and row
`keyRow` of them selected, the focus on the secrets table, and the versions
and value panes as given. -/
def sessionWith (client : Client) (keyRow : Nat) (versionRows : List (List TableCell))
    (value : String) : Session where
  secrets := ["A", "B"]
  client := some client
  keys := ⟨[[⟨"A", 0⟩], [⟨"B", 0⟩]], keyRow, 0⟩
  versionsTable := ⟨versionRows, 0, 0⟩
  secretValue := ⟨value⟩
  focus := .keys
  stopped := false
  clipboard := ""

/-! ## Lemmas on the vault list -/

theorem firstOccurrences_sublist (l : List String) : (firstOccurrences l).Sublist l := by
  induction l with
  | nil => exact List.Sublist.slnil
  | cons x xs ih =>
    simp only [firstOccurrences]
    exact ((List.filter_sublist _).trans ih).cons₂ x

theorem appendConfigVaults_step (acc pre : List String) (u : String) :
    appendConfigVaults acc (pre ++ [u]) =
      if u ∈ appendConfigVaults acc pre then appendConfigVaults acc pre
      else appendConfigVaults acc pre ++ [u] := by
  induction pre generalizing acc with
  | nil =>
    by_cases h : u ∈ acc <;> simp [appendConfigVaults, h]
  | cons v rest ih =>
    by_cases h : v ∈ acc <;> simp [appendConfigVaults, h, ih]

theorem appendConfigVaults_cons (acc rest : List String) (v : String) :
    appendConfigVaults acc (v :: rest) =
      if v ∈ acc then appendConfigVaults acc rest else appendConfigVaults (acc ++ [v]) rest := by
  by_cases h : v ∈ acc <;> simp [appendConfigVaults, h]

theorem appendConfigVaults_closed (acc cfg : List String) :
    appendConfigVaults acc cfg = acc ++ (firstOccurrences cfg).filter (fun u => u ∉ acc) := by
  induction cfg generalizing acc with
  | nil => simp [appendConfigVaults, firstOccurrences]
  | cons v rest ih =>
    rw [appendConfigVaults_cons]
    by_cases h : v ∈ acc
    · rw [if_pos h, ih, firstOccurrences, List.filter_cons]
      simp only [h, not_true_eq_false, decide_False, Bool.false_eq_true, if_false,
        List.filter_filter]
      congr 1
      apply List.filter_congr
      intro x _
      by_cases hx : x ∈ acc
      · simp [hx]
      · have : x ≠ v := fun e => hx (e ▸ h)
        simp [hx, this]
    · rw [if_neg h, ih, firstOccurrences, List.filter_cons]
      simp only [h, not_false_eq_true, decide_True, if_true, List.filter_filter,
        List.append_assoc, List.singleton_append]
      congr 2
      apply List.filter_congr
      intro x _
      by_cases hx : x ∈ acc <;> by_cases hv : x = v <;> simp [hx, hv]

theorem appendConfigVaults_nodup (acc cfg : List String) (h : acc.Nodup) :
    (appendConfigVaults acc cfg).Nodup := by
  induction cfg generalizing acc with
  | nil => simpa [appendConfigVaults]
  | cons v rest ih =>
    by_cases hv : v ∈ acc
    · simpa [appendConfigVaults, hv] using ih acc h
    · have : (acc ++ [v]).Nodup := by
        rw [List.nodup_append]
        refine ⟨h, List.nodup_singleton v, ?_⟩
        intro a ha hb
        simp at hb
        exact hv (hb ▸ ha)
      simpa [appendConfigVaults, hv] using ih (acc ++ [v]) this

theorem firstOccurrences_append (acc l : List String) (h : acc.Nodup) :
    firstOccurrences (acc ++ l) = acc ++ (firstOccurrences l).filter (fun u => u ∉ acc) := by
  induction acc with
  | nil => simp
  | cons a acc ih =>
    have hn := List.nodup_cons.mp h
    have e1 : List.filter (fun u => decide (u ≠ a)) acc = acc := by
      rw [List.filter_eq_self]
      intro x hx
      have : x ≠ a := fun e => hn.1 (e ▸ hx)
      simp [this]
    rw [List.cons_append, firstOccurrences, ih hn.2, List.filter_append, e1, List.filter_filter,
      List.cons_append]
    congr 2
    apply List.filter_congr
    intro x _
    by_cases hx : x ∈ acc <;> by_cases hv : x = a <;> simp [hx, hv]

theorem appendConfigVaults_mem (acc cfg : List String) (u : String) :
    u ∈ appendConfigVaults acc cfg ↔ u ∈ acc ∨ u ∈ cfg := by
  induction cfg generalizing acc with
  | nil => simp [appendConfigVaults]
  | cons v rest ih =>
    rw [appendConfigVaults_cons]
    by_cases h : v ∈ acc
    · rw [if_pos h, ih]
      constructor
      · rintro (h1 | h1)
        · exact Or.inl h1
        · exact Or.inr (List.mem_cons_of_mem _ h1)
      · rintro (h1 | h1)
        · exact Or.inl h1
        · rcases List.mem_cons.mp h1 with e | e
          · exact Or.inl (e ▸ h)
          · exact Or.inr e
    · rw [if_neg h, ih]
      simp only [List.mem_append, List.mem_singleton, List.mem_cons]
      tauto

/-! ## C1: the endpoint list -/

/-- C1: the endpoint list that `main` builds is the command-line URI (when
`os.Args` has one) followed by the config-file URIs in file order, a config
URI being skipped exactly when it already occurs in the list built so far;
this is the list of first occurrences of "command line, then config file",
it has no duplicates, and it is what `main` goes on with unless it is
empty. -/
theorem C1_endpoint_list_composition (args cfg : List String) :
    argVaults args = (args.get? 1).toList ∧
    appendConfigVaults (argVaults args) cfg = firstOccurrences (argVaults args ++ cfg) ∧
    (∃ kept, appendConfigVaults (argVaults args) cfg = argVaults args ++ kept ∧
      kept.Sublist cfg) ∧
    (∀ (pre : List String) (u : String),
      appendConfigVaults (argVaults args) (pre ++ [u]) =
        if u ∈ appendConfigVaults (argVaults args) pre then
          appendConfigVaults (argVaults args) pre
        else appendConfigVaults (argVaults args) pre ++ [u]) ∧
    (∀ u, u ∈ appendConfigVaults (argVaults args) cfg ↔ u ∈ argVaults args ∨ u ∈ cfg) ∧
    (appendConfigVaults (argVaults args) cfg).Nodup ∧
    mainVaults args (.parsed ⟨cfg⟩) =
      (if appendConfigVaults (argVaults args) cfg = [] then
        .exited 1 "No vaults to open, exiting\n"
      else .done (appendConfigVaults (argVaults args) cfg)) := by
  have hnd : (argVaults args).Nodup := by
    unfold argVaults
    split <;> simp
  refine ⟨?_, ?_, ?_, ?_, ?_, ?_, ?_⟩
  · unfold argVaults
    match args with
    | [] => simp
    | [_] => simp
    | _ :: b :: _ => simp
  · rw [appendConfigVaults_closed, firstOccurrences_append _ _ hnd]
  · exact ⟨_, appendConfigVaults_closed _ _,
      (List.filter_sublist _).trans (firstOccurrences_sublist cfg)⟩
  · intro pre u
    exact appendConfigVaults_step _ pre u
  · intro u
    rw [appendConfigVaults_mem]
  · exact appendConfigVaults_nodup _ _ hnd
  · simp only [mainVaults, Outcome.andThen, List.length_eq_zero]

/-- C1 at the start-up scenario of the specification: the URI given on the
command line is also the first of the two in the config file. -/
theorem C1_endpoint_list_composition_witness :
    mainVaults ["kvv", "https://v1.example"]
        (.parsed ⟨["https://v1.example", "https://v2.example"]⟩) =
      (if appendConfigVaults (argVaults ["kvv", "https://v1.example"])
          ["https://v1.example", "https://v2.example"] = [] then
        .exited 1 "No vaults to open, exiting\n"
      else .done (appendConfigVaults (argVaults ["kvv", "https://v1.example"])
          ["https://v1.example", "https://v2.example"])) ∧
    appendConfigVaults (argVaults ["kvv", "https://v1.example"])
        ["https://v1.example", "https://v2.example"] =
      ["https://v1.example", "https://v2.example"] :=
  ⟨(C1_endpoint_list_composition ["kvv", "https://v1.example"]
      ["https://v1.example", "https://v2.example"]).2.2.2.2.2.2, by decide⟩

/-! ## Lemmas on the insertion sort and on the versions table -/

theorem lessCreated_adjacent (l r : List secretVersion) (x y : secretVersion) :
    lessCreated (l ++ y :: x :: r) (l.length + 1) l.length = lessVersion x y := by
  have h1 : (l ++ y :: x :: r)[l.length + 1]? = some x := by
    rw [List.getElem?_append_right (by omega)]
    simp
  have h2 : (l ++ y :: x :: r)[l.length]? = some y := by
    rw [List.getElem?_append_right (by omega)]
    simp
  simp only [lessCreated, h1, h2, lessVersion]

theorem swapIdx_adjacent {α : Type} (l r : List α) (x y : α) :
    swapIdx (l ++ y :: x :: r) (l.length + 1) l.length = l ++ x :: y :: r := by
  have h1 : (l ++ y :: x :: r)[l.length + 1]? = some x := by
    rw [List.getElem?_append_right (by omega)]
    simp
  have h2 : (l ++ y :: x :: r)[l.length]? = some y := by
    rw [List.getElem?_append_right (by omega)]
    simp
  simp only [swapIdx, h1, h2]
  rw [List.set_append_right _ _ (by omega), List.set_append_right _ _ (by simp)]
  simp

theorem insertionInner_eq (done r : List secretVersion) (x : secretVersion) :
    insertionInner lessCreated 0 done.length (done.reverse ++ x :: r) =
      (insertLeft x done).reverse ++ r := by
  induction done generalizing r with
  | nil => simp [insertionInner, insertLeft]
  | cons y l ih =>
    have e : (y :: l).reverse ++ x :: r = l.reverse ++ y :: x :: r := by simp
    have hl : l.length = l.reverse.length := by simp
    rw [e, List.length_cons, insertionInner]
    have hless : lessCreated (l.reverse ++ y :: x :: r) (l.length + 1) l.length =
        lessVersion x y := by
      rw [hl]; exact lessCreated_adjacent _ _ _ _
    have hswap : swapIdx (l.reverse ++ y :: x :: r) (l.length + 1) l.length =
        l.reverse ++ x :: y :: r := by
      rw [hl]; exact swapIdx_adjacent _ _ _ _
    rw [hless, hswap]
    by_cases hc : lessVersion x y = true
    · simp [hc, insertLeft, ih]
    · simp [hc, insertLeft]

theorem insertLeft_length (x : secretVersion) (l : List secretVersion) :
    (insertLeft x l).length = l.length + 1 := by
  induction l with
  | nil => rfl
  | cons y l ih =>
    unfold insertLeft
    split <;> simp [ih]

theorem insertionOuter_eq (done todo : List secretVersion) :
    insertionOuter lessCreated 0 todo.length done.length (done.reverse ++ todo) =
      insertAll done todo := by
  induction todo generalizing done with
  | nil => simp [insertionOuter, insertAll]
  | cons x todo ih =>
    rw [List.length_cons, insertionOuter, insertionInner_eq, insertAll,
      ← insertLeft_length x done]
    exact ih _

theorem insertionSort_eq (versions : List secretVersion) :
    insertionSortLessFunc lessCreated versions 0 versions.length = insertAll [] versions := by
  cases versions with
  | nil => rfl
  | cons x todo =>
    have := insertionOuter_eq [x] todo
    simpa [insertionSortLessFunc, insertAll, insertLeft] using this

theorem insertLeft_perm (x : secretVersion) (l : List secretVersion) :
    (insertLeft x l).Perm (x :: l) := by
  induction l with
  | nil => exact List.Perm.refl _
  | cons y l ih =>
    unfold insertLeft
    split
    · exact ((List.Perm.cons y ih).trans (List.Perm.swap x y l))
    · exact List.Perm.refl _

theorem insertAll_perm (done todo : List secretVersion) :
    (insertAll done todo).Perm (done ++ todo) := by
  induction todo generalizing done with
  | nil => simp [insertAll]
  | cons x todo ih =>
    rw [insertAll]
    refine (ih _).trans ?_
    refine ((insertLeft_perm x done).append_right todo).trans ?_
    exact List.perm_middle.symm

theorem notBefore_iff {a b : secretVersion} :
    notBefore a b ↔
      ∃ ca cb, a.Created = some ca ∧ b.Created = some cb ∧ Time.Before ca cb = false := by
  unfold notBefore
  cases a.Created <;> cases b.Created <;> simp

theorem notBefore_of_less {x y : secretVersion} (h : lessVersion x y = true) :
    notBefore x y := by
  unfold lessVersion at h
  cases hx : x.Created with
  | none => simp [hx] at h
  | some cx =>
    cases hy : y.Created with
    | none => simp [hx, hy] at h
    | some cy =>
      refine notBefore_iff.mpr ⟨cx, cy, hx, hy, ?_⟩
      simpa [hx, hy] using h

theorem notBefore_of_not_less {x y : secretVersion} (hx : x.Created ≠ none)
    (hy : y.Created ≠ none) (h : ¬ lessVersion x y = true) : notBefore y x := by
  unfold lessVersion at h
  cases hx' : x.Created with
  | none => exact absurd hx' hx
  | some cx =>
    cases hy' : y.Created with
    | none => exact absurd hy' hy
    | some cy =>
      refine notBefore_iff.mpr ⟨cy, cx, hy', hx', ?_⟩
      simp only [hx', hy', Time.Before, Bool.not_eq_true', decide_eq_false_iff_not,
        Bool.not_eq_true, not_not, decide_eq_true_eq] at h
      simp only [Time.Before, decide_eq_false_iff_not]
      exact not_lt.mpr (le_of_lt h)

theorem notBefore_trans {a b c : secretVersion} (hab : notBefore a b) (hbc : notBefore b c) :
    notBefore a c := by
  obtain ⟨ca, cb, ha, hb, h1⟩ := notBefore_iff.mp hab
  obtain ⟨cb', cc, hb', hc, h2⟩ := notBefore_iff.mp hbc
  rw [hb] at hb'
  cases hb'
  refine notBefore_iff.mpr ⟨ca, cc, ha, hc, ?_⟩
  simp only [Time.Before, decide_eq_false_iff_not] at h1 h2 ⊢
  exact fun h => h1 (lt_of_lt_of_le h (not_lt.mp h2))

theorem notBefore_refl {a : secretVersion} (ha : a.Created ≠ none) : notBefore a a := by
  cases h : a.Created with
  | none => exact absurd h ha
  | some ca => exact notBefore_iff.mpr ⟨ca, ca, h, h, by simp [Time.Before]⟩

theorem insertLeft_sorted (x : secretVersion) (done : List secretVersion)
    (hx : x.Created ≠ none) (hd : ∀ v ∈ done, v.Created ≠ none)
    (hs : done.Pairwise (fun a b => notBefore b a)) :
    (insertLeft x done).Pairwise (fun a b => notBefore b a) := by
  induction done with
  | nil => simp [insertLeft]
  | cons y l ih =>
    have hy : y.Created ≠ none := hd y (List.mem_cons_self _ _)
    have hl : ∀ v ∈ l, v.Created ≠ none := fun v hv => hd v (List.mem_cons_of_mem _ hv)
    obtain ⟨hyl, hpl⟩ := List.pairwise_cons.mp hs
    unfold insertLeft
    by_cases hc : lessVersion x y = true
    · rw [if_pos hc]
      refine List.pairwise_cons.mpr ⟨?_, ih hl hpl⟩
      intro b hb
      rcases List.mem_cons.mp ((insertLeft_perm x l).mem_iff.mp hb) with e | e
      · exact e ▸ notBefore_of_less hc
      · exact hyl b e
    · rw [if_neg hc]
      have hyx : notBefore y x := notBefore_of_not_less hx hy hc
      refine List.pairwise_cons.mpr ⟨?_, hs⟩
      intro b hb
      rcases List.mem_cons.mp hb with e | e
      · exact e ▸ hyx
      · exact notBefore_trans (hyl b e) hyx

theorem insertAll_sorted (done todo : List secretVersion)
    (hd : ∀ v ∈ done, v.Created ≠ none) (ht : ∀ v ∈ todo, v.Created ≠ none)
    (hs : done.Pairwise (fun a b => notBefore b a)) :
    (insertAll done todo).Pairwise notBefore := by
  induction todo generalizing done with
  | nil => simpa [insertAll, List.pairwise_reverse] using hs
  | cons x todo ih =>
    rw [insertAll]
    have hx : x.Created ≠ none := ht x (List.mem_cons_self _ _)
    refine ih _ ?_ (fun v hv => ht v (List.mem_cons_of_mem _ hv)) (insertLeft_sorted x done hx hd hs)
    intro v hv
    rcases List.mem_cons.mp ((insertLeft_perm x done).mem_iff.mp hv) with e | e
    · exact e ▸ hx
    · exact hd v e

theorem SetCell_new_row (t : Table) (c : TableCell) :
    t.SetCell t.cells.length 0 c = { t with cells := t.cells ++ [[c]] } := by
  simp [Table.SetCell, List.getD_eq_getElem?_getD]

theorem SetCell_second (t : Table) (rows : List (List TableCell)) (c d : TableCell)
    (h : t.cells = rows ++ [[c]]) :
    t.SetCell rows.length 1 d = { t with cells := rows ++ [[c, d]] } := by
  simp [Table.SetCell, h, List.getD_eq_getElem?_getD]

theorem renderVersions_eq (env : Env) (vs : List secretVersion) (t : Table)
    (hv : ∀ v ∈ vs, v.Created ≠ none) :
    renderVersions env t t.cells.length vs =
      .done { t with cells := t.cells ++ vs.map (versionRow env) } := by
  induction vs generalizing t with
  | nil => simp [renderVersions]
  | cons v vs ih =>
    have hv0 : v.Created ≠ none := hv v (List.mem_cons_self _ _)
    cases hc : v.Created with
    | none => exact absurd hc hv0
    | some created =>
      simp only [renderVersions, hc]
      rw [SetCell_new_row, SetCell_second _ t.cells _ _ rfl]
      have := ih { t with cells := t.cells ++ [[⟨v.Id, 2⟩, ⟨env.timeString created, 0⟩]] }
        (fun w hw => hv w (List.mem_cons_of_mem _ hw))
      simp only [List.length_append, List.length_singleton] at this
      simp only [NewTableCell, TableCell.SetExpansion]
      rw [this]
      simp [versionRow, hc]

/-! ## C3: versions with known creation times come out newest first -/

/-- C3: for at most twelve versions, all with a known creation time,
`sortSecretVersionsNewestFirst` returns a permutation of its input in which no
version was created before a later one in the list, so the first one is a
newest one; `showVersions` writes these versions in this order into the rows
of the versions table, selects row 0 and calls `versionSelected` for row 0. -/
theorem C3_sorted_newest_first (versions : List secretVersion)
    (hlen : versions.length ≤ maxInsertion)
    (hcreated : ∀ v ∈ versions, v.Created ≠ none) :
    ∃ sorted, sortSecretVersionsNewestFirst versions = some ⟨sorted, sorted⟩ ∧
      sorted.Perm versions ∧
      sorted.Pairwise notBefore ∧
      sorted.Chain' notBefore ∧
      (∀ first ∈ sorted.head?, ∀ v ∈ versions, notBefore first v) ∧
      (∀ (env : Env) (s : Session), showVersions env s versions =
        (versionSelected
          { s with versionsTable :=
              ⟨sorted.map (versionRow env), 0, 0⟩ } 0).andThen
          fun s => .done (setTableFocus s .versionsTable)) := by
  have hsort : sortSecretVersionsNewestFirst versions =
      some ⟨insertAll [] versions, insertAll [] versions⟩ := by
    simp only [sortSecretVersionsNewestFirst, sortSlice, hlen, if_true, insertionSort_eq]
  have hperm : (insertAll [] versions).Perm versions := by
    simpa using insertAll_perm [] versions
  have hpw : (insertAll [] versions).Pairwise notBefore :=
    insertAll_sorted [] versions (by simp) hcreated List.Pairwise.nil
  have hall : ∀ v ∈ insertAll [] versions, v.Created ≠ none :=
    fun v hv => hcreated v (hperm.mem_iff.mp hv)
  refine ⟨insertAll [] versions, hsort, hperm, hpw, hpw.chain', ?_, ?_⟩
  · intro first hfirst v hv
    have hv2 : v ∈ insertAll [] versions := hperm.mem_iff.mpr hv
    cases hs : insertAll [] versions with
    | nil => rw [hs] at hv2; cases hv2
    | cons a l =>
      rw [hs] at hv2 hpw hfirst hall
      simp only [List.head?_cons, Option.mem_def, Option.some.injEq] at hfirst
      subst hfirst
      rcases List.mem_cons.mp hv2 with e | e
      · rw [e]
        exact notBefore_refl (hall a (List.mem_cons_self _ _))
      · exact (List.pairwise_cons.mp hpw).1 v e
  · intro env s
    have hr := renderVersions_eq env (insertAll [] versions) s.versionsTable.Clear hall
    simp only [Table.Clear, List.length_nil, List.nil_append] at hr
    simp only [showVersions, hsort, Table.Clear, hr, Outcome.andThen, Table.Select]

/-- C3 at the browsing scenario of the specification: `y` is older than `x`
and listed first, and `x` comes out first. -/
theorem C3_sorted_newest_first_witness :
    ∃ sorted, sortSecretVersionsNewestFirst [⟨"y", some 1⟩, ⟨"x", some 2⟩] =
        some ⟨sorted, sorted⟩ ∧
      sorted.Perm [⟨"y", some 1⟩, ⟨"x", some 2⟩] ∧
      sorted.Pairwise notBefore ∧
      sorted.Chain' notBefore ∧
      (∀ first ∈ sorted.head?, ∀ v ∈ [(⟨"y", some 1⟩ : secretVersion), ⟨"x", some 2⟩],
        notBefore first v) ∧
      (∀ (env : Env) (s : Session),
        showVersions env s [⟨"y", some 1⟩, ⟨"x", some 2⟩] =
        (versionSelected
          { s with versionsTable :=
              ⟨sorted.map (versionRow env), 0, 0⟩ } 0).andThen
          fun s => .done (setTableFocus s .versionsTable)) :=
  C3_sorted_newest_first [⟨"y", some 1⟩, ⟨"x", some 2⟩] (by decide) (by decide)

/-! ## C2 and C10: what the sort does with unknown creation times, ties and
the caller's slice -/

/-- C2: on the specification's own example, a version without creation time
listed first stays first (the specified order is `r, q, p`); one listed
between two others keeps them in ascending order; and two versions of equal
creation time come out swapped. -/
theorem C2_null_created_not_trailing :
    sortSecretVersionsNewestFirst [⟨"p", none⟩, ⟨"q", some 1⟩, ⟨"r", some 2⟩] =
      some ⟨[⟨"p", none⟩, ⟨"r", some 2⟩, ⟨"q", some 1⟩],
        [⟨"p", none⟩, ⟨"r", some 2⟩, ⟨"q", some 1⟩]⟩ ∧
    specNewestFirst [⟨"p", none⟩, ⟨"q", some 1⟩, ⟨"r", some 2⟩] =
      [⟨"r", some 2⟩, ⟨"q", some 1⟩, ⟨"p", none⟩] ∧
    sortSecretVersionsNewestFirst [⟨"q", some 1⟩, ⟨"p", none⟩, ⟨"r", some 2⟩] =
      some ⟨[⟨"q", some 1⟩, ⟨"p", none⟩, ⟨"r", some 2⟩],
        [⟨"q", some 1⟩, ⟨"p", none⟩, ⟨"r", some 2⟩]⟩ ∧
    sortSecretVersionsNewestFirst [⟨"a", some 1⟩, ⟨"b", some 1⟩] =
      some ⟨[⟨"b", some 1⟩, ⟨"a", some 1⟩], [⟨"b", some 1⟩, ⟨"a", some 1⟩]⟩ := by
  refine ⟨by decide, by decide, by decide, by decide⟩

/-- C10: the slice the caller passed to `sortSecretVersionsNewestFirst` is
itself reordered: for the input `[old, new]` the caller's slice reads
`[new, old]` after the call, the same as the returned one. -/
theorem C10_caller_slice_reordered :
    sortSecretVersionsNewestFirst [⟨"old", some 10⟩, ⟨"new", some 20⟩] =
      some ⟨[⟨"new", some 20⟩, ⟨"old", some 10⟩], [⟨"new", some 20⟩, ⟨"old", some 10⟩]⟩ ∧
    (∀ r ∈ sortSecretVersionsNewestFirst [⟨"old", some 10⟩, ⟨"new", some 20⟩],
      r.callerSlice ≠ [⟨"old", some 10⟩, ⟨"new", some 20⟩]) := by
  refine ⟨by decide, by decide⟩

/-! ## C4: the value pane after a fetch -/

/-- C4: `versionSelected` returns in every case of the fetch.  When the fetch
fails with the diagnostic `r`, the value pane holds `error getting secret: `
directly followed by `r`; when it succeeds with a value, the pane holds that
value; when it succeeds without one, the session is as before. -/
theorem C4_value_pane_after_fetch (s : Session) (client : Client) (row : Nat)
    (keyCell versionCell : TableCell)
    (hclient : s.client = some client)
    (hkey : s.keys.GetCell s.keys.GetSelection.1 0 = some keyCell)
    (hversion : s.versionsTable.GetCell row 0 = some versionCell) :
    (∀ r, client.GetSecret keyCell.Text versionCell.Text = .error r →
      versionSelected s row =
        .done { s with secretValue := ⟨"error getting secret: " ++ r⟩ }) ∧
    (∀ value, client.GetSecret keyCell.Text versionCell.Text = .ok (some value) →
      versionSelected s row = .done { s with secretValue := ⟨value⟩ }) ∧
    (client.GetSecret keyCell.Text versionCell.Text = .ok none →
      versionSelected s row = .done s) := by
  refine ⟨?_, ?_, ?_⟩
  · intro r hr
    simp only [versionSelected, hkey, hversion, hclient, hr, showValue, TextView.Clear,
      TextView.SetText]
  · intro value hvalue
    simp only [versionSelected, hkey, hversion, hclient, hvalue, showValue, TextView.Clear,
      TextView.SetText]
  · intro hnone
    simp only [versionSelected, hkey, hversion, hclient, hnone]

/-- C4 at the denial scenario of the specification: the fetch of version `x`
of secret `A` is refused with `forbidden`. -/
theorem C4_value_pane_after_fetch_witness :
    versionSelected (sessionWith (failingClient "forbidden") 0 [[⟨"x", 2⟩, ⟨"t", 0⟩]] "") 0 =
      .done { sessionWith (failingClient "forbidden") 0 [[⟨"x", 2⟩, ⟨"t", 0⟩]] "" with
        secretValue := ⟨"error getting secret: " ++ "forbidden"⟩ } ∧
    "error getting secret: " ++ "forbidden" = "error getting secret: forbidden" :=
  ⟨(C4_value_pane_after_fetch
      (sessionWith (failingClient "forbidden") 0 [[⟨"x", 2⟩, ⟨"t", 0⟩]] "")
      (failingClient "forbidden") 0 ⟨"A", 0⟩ ⟨"x", 2⟩ rfl rfl rfl).1 "forbidden" rfl,
    by decide⟩

/-! ## C9: Ctrl-C -/

/-- C9: the global key capture hands no event on for Ctrl-C and returns the
session as it was, whatever the session and the focus; and the application is
stopped after a key event exactly when it was stopped before or the event is
not Ctrl-C and carries the rune `q`. -/
theorem C9_ctrl_c_swallowed (env : Env) (s : Session) (event : EventKey) :
    (event.Key = Key.KeyCtrlC → appInputCapture env s event = (none, s)) ∧
    ((appInputCapture env s event).2.stopped = true ↔
      s.stopped = true ∨ (event.Key ≠ Key.KeyCtrlC ∧ event.Rune = 'q')) := by
  constructor
  · intro h
    simp [appInputCapture, h]
  · unfold appInputCapture
    by_cases hk : event.Key = Key.KeyCtrlC
    · simp [hk]
    · by_cases hc : event.Rune = 'c'
      · have : (copySecret env s).stopped = s.stopped := by
          unfold copySecret
          split <;> rfl
        simp [hk, hc, this]
      · by_cases hv : event.Rune = 'v'
        · simp [hk, hc, hv, unfocusTables]
        · by_cases hq : event.Rune = 'q'
          · simp [hk, hq]
          · simp [hk, hc, hv, hq]

/-- C9 with the versions table focused and a value on screen: Ctrl-C changes
nothing. -/
theorem C9_ctrl_c_swallowed_witness :
    appInputCapture (envWith noVersionsClient)
        { sessionWith noVersionsClient 0 [[⟨"x", 2⟩, ⟨"t", 0⟩]] "plaintext" with
          focus := .versionsTable }
        ⟨Key.KeyCtrlC, 'c'⟩ =
      (none, { sessionWith noVersionsClient 0 [[⟨"x", 2⟩, ⟨"t", 0⟩]] "plaintext" with
          focus := .versionsTable }) :=
  (C9_ctrl_c_swallowed (envWith noVersionsClient)
    { sessionWith noVersionsClient 0 [[⟨"x", 2⟩, ⟨"t", 0⟩]] "plaintext" with
      focus := .versionsTable }
    ⟨Key.KeyCtrlC, 'c'⟩).1 rfl

/-! ## C5: a failing secrets pager -/

theorem drainSecrets_failing_page (good : List (List String)) (err : String)
    (rest : List (Page String)) (secrets : List String) :
    drainSecrets (good.map Except.ok ++ Except.error err :: rest) secrets =
      .panicked ("failed to get paged secrets: " ++ err) := by
  induction good generalizing secrets with
  | nil => simp [drainSecrets]
  | cons page good ih => simp [drainSecrets, ih]

/-- C5, against the claim as stated: with a secrets pager that yields one page
and then fails, selecting the vault does not return, so there is no session
afterwards, with an empty secrets list or otherwise. -/
theorem C5_listing_failure_aborts :
    ¬ ∃ s', vaultOptionSelected (envWith brokenPagerClient)
        (sessionWith noVersionsClient 0 [] "") "https://v1.example" = .done s' ∧
      s'.secrets = [] := by
  rintro ⟨s', h, _⟩
  have hp : vaultOptionSelected (envWith brokenPagerClient)
      (sessionWith noVersionsClient 0 [] "") "https://v1.example" =
      .panicked "failed to get paged secrets: context deadline exceeded" := rfl
  rw [hp] at h
  cases h

/-- C5 as amended: when the secrets pager of the selected vault fails on a
page, after any number of good pages, selecting that vault ends in the panic
of `fetchSecrets`, which carries `failed to get paged secrets: ` and the
error of that page. -/
theorem C5_listing_failure_panics (env : Env) (s : Session) (vaultUri : String)
    (client : Client) (good : List (List String)) (err : String) (rest : List (Page String))
    (hclient : env.NewClient vaultUri = .ok client)
    (hpager : client.NewListSecretsPager = good.map Except.ok ++ Except.error err :: rest) :
    vaultOptionSelected env s vaultUri =
      .panicked ("failed to get paged secrets: " ++ err) := by
  simp only [vaultOptionSelected, connect, hclient, Outcome.andThen, fetchSecrets, hpager,
    drainSecrets_failing_page]

/-- C5 as amended, for a pager that yields the page `[A, B]` and then runs
into a timeout. -/
theorem C5_listing_failure_panics_witness :
    vaultOptionSelected (envWith brokenPagerClient) (sessionWith noVersionsClient 0 [] "")
        "https://v1.example" =
      .panicked ("failed to get paged secrets: " ++ "context deadline exceeded") :=
  C5_listing_failure_panics (envWith brokenPagerClient) (sessionWith noVersionsClient 0 [] "")
    "https://v1.example" brokenPagerClient [["A", "B"]] "context deadline exceeded" [] rfl rfl

/-! ## C6: a version without creation time in `showVersions` -/

theorem renderVersions_nil_created (env : Env) (vs : List secretVersion) (t : Table) (r : Nat)
    (h : ∃ v ∈ vs, v.Created = none) :
    renderVersions env t r vs = .panicked nilDereference := by
  induction vs generalizing t r with
  | nil => simp at h
  | cons v vs ih =>
    cases hc : v.Created with
    | none => simp only [renderVersions, hc]
    | some created =>
      simp only [renderVersions, hc]
      apply ih
      obtain ⟨w, hw, hwn⟩ := h
      rcases List.mem_cons.mp hw with e | e
      · rw [e, hc] at hwn
        cases hwn
      · exact ⟨w, e, hwn⟩

theorem showVersions_nil_created (env : Env) (s : Session) (versions : List secretVersion)
    (hlen : versions.length ≤ maxInsertion) (h : ∃ v ∈ versions, v.Created = none) :
    showVersions env s versions = .panicked nilDereference := by
  have hsort : sortSecretVersionsNewestFirst versions =
      some ⟨insertAll [] versions, insertAll [] versions⟩ := by
    simp only [sortSecretVersionsNewestFirst, sortSlice, hlen, if_true, insertionSort_eq]
  have hperm : (insertAll [] versions).Perm versions := by
    simpa using insertAll_perm [] versions
  obtain ⟨v, hv, hvn⟩ := h
  simp only [showVersions, hsort,
    renderVersions_nil_created env _ _ 0 ⟨v, hperm.mem_iff.mpr hv, hvn⟩, Outcome.andThen]

/-- C6: for the version list `[p]` with `p` lacking a creation time,
`showVersions` does not complete: it runs into a nil pointer dereference when
it asks the creation time for its text, in every session. -/
theorem C6_null_created_panics (env : Env) (s : Session) :
    showVersions env s [⟨"p", none⟩] = .panicked nilDereference :=
  showVersions_nil_created env s [⟨"p", none⟩] (by decide) ⟨⟨"p", none⟩, by simp, rfl⟩

/-! ## C7: a secret without versions -/

/-- C7, against the claim as stated: secret `A` lists no version and the
store answers a fetch with the empty version id; after `secretSelected` the
focus is on the versions table and the value pane shows the fetched text. -/
theorem C7_empty_versions_focus_moves :
    ¬ ∃ s', secretSelected (envWith noVersionsClient)
        (sessionWith noVersionsClient 0 [] "") 0 0 = .done s' ∧
      s'.versionsTable.cells = [] ∧ s'.secretValue.text = "" ∧ s'.focus = Widget.keys := by
  rintro ⟨s', h, _, hvalue, hfocus⟩
  have hp : secretSelected (envWith noVersionsClient) (sessionWith noVersionsClient 0 [] "") 0 0 =
      .done { sessionWith noVersionsClient 0 [] "" with
        secretValue := ⟨"current plaintext"⟩, focus := .versionsTable } := rfl
  rw [hp] at h
  cases h
  cases hfocus

/-- C7 as amended: when the selected secret lists no version, `secretSelected`
returns with the versions pane empty and the focus on the versions table,
after `versionSelected` has fetched the secret named in the selected row of
the secrets table with the empty version id; the value pane holds what that
fetch gives: the diagnostic, the value, or its former text when there is no
value. -/
theorem C7_empty_versions_outcome (env : Env) (s : Session) (client : Client)
    (row col : Nat) (secretCell keyCell : TableCell)
    (hclient : s.client = some client)
    (hcell : s.keys.GetCell row col = some secretCell)
    (hversions : getSecretVersions secretCell.Text client = .ok [])
    (hkey : s.keys.GetCell s.keys.GetSelection.1 0 = some keyCell) :
    ∃ s', secretSelected env s row col = .done s' ∧
      s'.versionsTable.cells = [] ∧
      s'.focus = Widget.versionsTable ∧
      s'.secretValue.text =
        (match client.GetSecret keyCell.Text "" with
          | .error err => "error getting secret: " ++ err
          | .ok (some value) => value
          | .ok none => s.secretValue.text) := by
  have hsort : sortSecretVersionsNewestFirst [] = some ⟨[], []⟩ := rfl
  have hsel : secretSelected env s row col =
      (versionSelected { s with versionsTable := (s.versionsTable.Clear).Select 0 0 } 0).andThen
        fun s => .done (setTableFocus s .versionsTable) := by
    simp only [secretSelected, hcell, hclient, hversions, showVersions, hsort, renderVersions]
    rfl
  have hv : ({ s with versionsTable := (s.versionsTable.Clear).Select 0 0 } :
      Session).versionsTable.GetCell 0 0 = some ⟨"", 0⟩ := rfl
  cases hget : client.GetSecret keyCell.Text "" with
  | error err =>
    refine ⟨setTableFocus (showValue { s with versionsTable := (s.versionsTable.Clear).Select 0 0 }
      ("error getting secret: " ++ err)) .versionsTable, ?_, rfl, rfl, rfl⟩
    rw [hsel]
    simp only [versionSelected, hkey, hv, hclient, hget, Outcome.andThen]
  | ok value =>
    cases value with
    | none =>
      refine ⟨setTableFocus { s with versionsTable := (s.versionsTable.Clear).Select 0 0 }
        .versionsTable, ?_, rfl, rfl, rfl⟩
      rw [hsel]
      simp only [versionSelected, hkey, hv, hclient, hget, Outcome.andThen]
    | some value =>
      refine ⟨setTableFocus (showValue
        { s with versionsTable := (s.versionsTable.Clear).Select 0 0 } value) .versionsTable,
        ?_, rfl, rfl, rfl⟩
      rw [hsel]
      simp only [versionSelected, hkey, hv, hclient, hget, Outcome.andThen]

/-- C7 as amended, for secret `A` of a store that lists no version and
answers the fetch with the empty version id. -/
theorem C7_empty_versions_outcome_witness :
    ∃ s', secretSelected (envWith noVersionsClient)
        (sessionWith noVersionsClient 0 [] "") 0 0 = .done s' ∧
      s'.versionsTable.cells = [] ∧
      s'.focus = Widget.versionsTable ∧
      s'.secretValue.text =
        (match noVersionsClient.GetSecret (TableCell.mk "A" 0).Text "" with
          | .error err => "error getting secret: " ++ err
          | .ok (some value) => value
          | .ok none => (sessionWith noVersionsClient 0 [] "").secretValue.text) :=
  C7_empty_versions_outcome (envWith noVersionsClient) (sessionWith noVersionsClient 0 [] "")
    noVersionsClient 0 0 ⟨"A", 0⟩ ⟨"A", 0⟩ rfl rfl rfl rfl

/-! ## C8: a failing version listing -/

theorem secretSelected_listing_error (env : Env) (s : Session) (client : Client)
    (row col : Nat) (secretCell : TableCell) (err : String)
    (hclient : s.client = some client)
    (hcell : s.keys.GetCell row col = some secretCell)
    (hversions : getSecretVersions secretCell.Text client = .error err) :
    secretSelected env s row col = .done s := by
  simp only [secretSelected, hcell, hclient, hversions]

/-- C8: the panes show version `x` and the value of secret `A`; secret `B` is
selected and its version listing fails.  `secretSelected` returns the session
as it was, so the versions pane still holds the row of `x` and the value pane
still holds the value of `A`. -/
theorem C8_listing_failure_keeps_panes :
    ∃ s', secretSelected (envWith (failingClient "SecretNotFound"))
        (sessionWith (failingClient "SecretNotFound") 1 [[⟨"x", 2⟩, ⟨"t", 0⟩]] "value of A")
        1 0 = .done s' ∧
      s'.versionsTable.cells = [[⟨"x", 2⟩, ⟨"t", 0⟩]] ∧
      s'.secretValue.text = "value of A" :=
  ⟨_, rfl, rfl, rfl⟩

end Kvv
